import Mathlib

/-
Verification of the TibiaSprites harvest scripts.

Shallow embedding of the four Python harvesters
(download_fandom_achievements.py, download_fandom_mounts.py,
download_fandom_outfits_female_addons.py, download_tibiawiki_assets.py).

Strings are modelled as List Char.  Network I/O (HTTP responses, MediaWiki
API answers, image downloads) is modelled by oracle functions passed as
parameters; the filesystem of already-downloaded non-empty files is a list
of file names.  Python regular-expression character classes are modelled at
ASCII fidelity (Char.isAlphanum / Char.isDigit), which covers every
behaviour the claims exercise.
-/

namespace TibiaSprites

/-- Python whitespace class for str.strip / str.split / regex \s
(space, tab, newline, carriage return, vertical tab, form feed). -/
def pyIsSpace (c : Char) : Bool :=
  c = ' ' || c = '\t' || c = '\n' || c = '\r' || c = '\x0b' || c = '\x0c'

/-- Python regex \w word character, at ASCII fidelity: letters, digits, underscore. -/
def pyIsWordChar (c : Char) : Bool :=
  c.isAlphanum || c = '_'

/-- Python str.strip(): drop leading and trailing whitespace. -/
def pyStrip (s : List Char) : List Char :=
  ((s.dropWhile pyIsSpace).reverse.dropWhile pyIsSpace).reverse

/-- State-machine pass of collapseRuns: the flag records whether the scan
stands inside a whitespace run already replaced. -/
def collapseRunsAux (rep : Char) : Bool → List Char → List Char
  | _, [] => []
  | inRun, c :: cs =>
    if pyIsSpace c then
      if inRun then collapseRunsAux rep true cs
      else rep :: collapseRunsAux rep true cs
    else c :: collapseRunsAux rep false cs

/-- Python re.sub of every whitespace run by one copy of rep
(models re.sub with pattern backslash-s-plus). -/
def collapseRuns (rep : Char) (s : List Char) : List Char :=
  collapseRunsAux rep false s

/-- Accumulator pass of pySplitWs: the first argument collects the current
word reversed. -/
def pySplitWsAux : List Char → List Char → List (List Char)
  | acc, [] => if acc = [] then [] else [acc.reverse]
  | acc, c :: cs =>
    if pyIsSpace c then
      if acc = [] then pySplitWsAux [] cs
      else acc.reverse :: pySplitWsAux [] cs
    else pySplitWsAux (c :: acc) cs

/-- Python str.split() with no argument: split on whitespace runs, no empty words. -/
def pySplitWs (s : List Char) : List (List Char) :=
  pySplitWsAux [] s

/-- Python str.split(sep) for a one-character separator, as a pair
(first word, remaining words). -/
def splitOnCharP (d : Char) : List Char → List Char × List (List Char)
  | [] => ([], [])
  | c :: cs =>
    let r := splitOnCharP d cs
    if c = d then ([], r.1 :: r.2) else (c :: r.1, r.2)

/-- Python str.split(sep) for a one-character separator. -/
def splitOnChar (d : Char) (s : List Char) : List (List Char) :=
  (splitOnCharP d s).1 :: (splitOnCharP d s).2

/-- Map with the element index, modelling Python enumerate. -/
def mapIdx (g : Nat → α → β) : Nat → List α → List β
  | _, [] => []
  | i, a :: as => g i a :: mapIdx g (i + 1) as

/-- Lexicographic less-or-equal on char lists (Python list/str comparison). -/
def lexLe : List Char → List Char → Bool
  | [], _ => true
  | _ :: _, [] => false
  | a :: as, b :: bs => if a = b then lexLe as bs else decide (a < b)

/-- Insert keeping stability: the new element goes before later equal keys. -/
def insertLe (le : α → α → Bool) (a : α) : List α → List α
  | [] => [a]
  | b :: bs => if le a b then a :: b :: bs else b :: insertLe le a bs

/-- Stable insertion sort, modelling Python sorted with a key function. -/
def insSort (le : α → α → Bool) : List α → List α
  | [] => []
  | a :: as => insertLe le a (insSort le as)

/-- parse_int from download_fandom_achievements.py: value of the first
match of the regex minus-sign-optional-digits (re.search), None when the
text holds no digit. -/
def digitsVal (l : List Char) : Nat :=
  l.foldl (fun a c => a * 10 + (c.toNat - 48)) 0

def parse_int : List Char → Option Int
  | [] => none
  | c :: cs =>
    if c.isDigit then
      some (Int.ofNat (digitsVal ((c :: cs).takeWhile Char.isDigit)))
    else if c = '-' then
      match cs with
      | [] => none
      | d :: _ =>
        if d.isDigit then some (-(Int.ofNat (digitsVal (cs.takeWhile Char.isDigit))))
        else parse_int cs
    else parse_int cs

/-- Characters kept by safe_filename before whitespace collapsing:
the regex class of word chars, whitespace, hyphen, parens, brackets, dot. -/
def keepChar (c : Char) : Bool :=
  pyIsWordChar c || pyIsSpace c || c = '-' || c = '(' || c = ')' ||
    c = '[' || c = ']' || c = '.'

/-- safe_filename from download_fandom_mounts.py and
download_fandom_outfits_female_addons.py. -/
def safe_filename (name : List Char) : List Char :=
  let s := name.filter keepChar
  let s2 := collapseRuns '_' (pyStrip s)
  if s2 = [] then ("unknown").toList else s2.take 160

/-- The closed set of function words of build_fandom_gif_file. -/
def lowerWords : List (List Char) :=
  [("a").toList, ("an").toList, ("the").toList, ("of").toList, ("in").toList,
   ("on").toList, ("to").toList, ("and").toList, ("with").toList, ("from").toList]

/-- Python str.capitalize-style per-segment rule of build_fandom_gif_file:
first char uppercased, the rest lowercased; empty segments kept. -/
def capSeg : List Char → List Char
  | [] => []
  | c :: cs => c.toUpper :: cs.map Char.toLower

/-- One word of build_fandom_gif_file: capitalize each hyphen-separated
segment, re-join with hyphens. -/
def capWord (w : List Char) : List Char :=
  List.intercalate ['-'] ((splitOnChar '-' w).map capSeg)

/-- Function-word lowercasing of build_fandom_gif_file: a word after the
first position whose lowercasing is in the closed set is lowercased. -/
def applyFuncLower (i : Nat) (out : List Char) : List Char :=
  if i > 0 ∧ out.map Char.toLower ∈ lowerWords then out.map Char.toLower else out

/-- build_fandom_gif_file from download_tibiawiki_assets.py. -/
def build_fandom_gif_file (name : List Char) : Option (List Char) :=
  if name = [] then none
  else
    let sNorm := List.intercalate [' '] (pySplitWs name)
    let words := splitOnChar ' ' sNorm
    let outWords := mapIdx (fun i w => applyFuncLower i (capWord w)) 0 words
    some ((List.intercalate [' '] outWords).map
      (fun c => if c = ' ' then '_' else c) ++ (".gif").toList)

/-! ## Micro-DOM

A flat model of the parsed HTML the scripts inspect: a cell is a list of
inline nodes (text, anchor, superscript footnote, image), a row is a list
of cells each flagged th/td, a table is a list of rows. -/

inductive Inline where
  | txt (s : List Char)
  | anchor (s : List Char)
  | sup (s : List Char)
  | img (dataSrc : Option (List Char)) (src : Option (List Char))
deriving DecidableEq

structure Cell where
  header : Bool
  items : List Inline
deriving DecidableEq

structure HRow where
  cells : List Cell
deriving DecidableEq

structure HTable where
  rows : List HRow
deriving DecidableEq

/-- Visible text of one inline node (images contribute none). -/
def itemText : Inline → List Char
  | Inline.txt s => s
  | Inline.anchor s => s
  | Inline.sup s => s
  | Inline.img _ _ => []

def isSupNode : Inline → Bool
  | Inline.sup _ => true
  | _ => false

/-- BeautifulSoup get_text(" ", strip=True): each text node stripped,
empties dropped, the rest joined with one space. -/
def getTextSpace (items : List Inline) : List Char :=
  List.intercalate [' ']
    (((items.map (fun it => pyStrip (itemText it)))).filter (fun s => s ≠ []))

/-- cell.find("a"): text of the first anchor in the cell. -/
def firstAnchor (c : Cell) : Option (List Char) :=
  c.items.findSome? (fun it =>
    match it with
    | Inline.anchor s => some s
    | _ => none)

/-- cell_text from download_fandom_achievements.py: decompose sup nodes,
get_text(" ", strip=True), collapse whitespace. -/
def cell_text (c : Cell) : List Char :=
  collapseRuns ' ' (getTextSpace (c.items.filter (fun it => isSupNode it = false)))

/-- norm from the fandom scripts: strip, lowercase, collapse whitespace. -/
def norm (s : List Char) : List Char :=
  collapseRuns ' ' ((pyStrip s).map Char.toLower)

/-- Cell access tds[i]; the scripts only index after a length guard. -/
def cellAt (tds : List Cell) (i : Nat) : Cell :=
  (tds.get? i).getD ⟨false, []⟩

/-! ## download_fandom_achievements.py -/

/-- The acceptance test find_achievements_table applies to one table:
its first tr must exist, hold at least five th cells, and the normalized
th texts must include name, grade, points and description.  Returns the
normalized header list on acceptance. -/
def acceptsAchTable (t : HTable) : Option (List (List Char)) :=
  match t.rows.head? with
  | none => none
  | some hr =>
    let ths := hr.cells.filter (fun c => c.header)
    if ths.length < 5 then none
    else
      let headers := ths.map (fun th => norm (getTextSpace th.items))
      if ("name").toList ∈ headers ∧ ("grade").toList ∈ headers ∧
          ("points").toList ∈ headers ∧ ("description").toList ∈ headers then
        some headers
      else none

/-- find_achievements_table: first table of the document passing the test. -/
def find_achievements_table (doc : List HTable) : Option (HTable × List (List Char)) :=
  doc.findSome? (fun t => (acceptsAchTable t).map (fun hs => (t, hs)))

/-- Python dict comprehension header-to-index: a repeated header keeps the
last index. -/
def lastIdxOf (l : List (List Char)) (x : List Char) : Option Nat :=
  ((mapIdx (fun i h => (i, h)) 0 l).filter (fun p => p.2 = x)).getLast?.map
    (fun p => p.1)

/-- Name derivation of the achievements row loop: text of the first anchor
of the name cell when present, else the cell text, stripped. -/
def extractName (c : Cell) : List Char :=
  pyStrip (match firstAnchor c with
    | some t => pyStrip t
    | none => cell_text c)

/-- One extracted achievements record. -/
structure Item where
  name : List Char
  grade : Option Int
  points : Option Int
  description : List Char
  idField : Option (Option Int)
  secret : Option Bool
  implemented : Option (List Char)
deriving DecidableEq

/-- Python substring test (pat in s) on char lists. -/
def containsSub (pat : List Char) : List Char → Bool
  | [] => decide (pat = [])
  | c :: tail => pat.isPrefixOf (c :: tail) || containsSub pat tail

/-- The secret flag: check-mark glyph present or case-insensitive yes. -/
def secretVal (s : List Char) : Bool :=
  '✓' ∈ s || containsSub (("yes").toList) (s.map Char.toLower)

/-- One data row of the achievements loop: skip on the cell-count guard,
derive the name, skip on empty name, else extract the fields. -/
def processRow (ni gi poi di : Nat) (idi seci impi : Option Nat) (tr : HRow) :
    Option Item :=
  let tds := tr.cells
  if tds.length = 0 ∨ tds.length ≤ max (max ni gi) (max poi di) then none
  else
    let name := extractName (cellAt tds ni)
    if name = [] then none
    else
      some
        { name := name
          grade := parse_int (cell_text (cellAt tds gi))
          points := parse_int (cell_text (cellAt tds poi))
          description := cell_text (cellAt tds di)
          idField :=
            match idi with
            | some i => if i < tds.length then some (parse_int (cell_text (cellAt tds i))) else none
            | none => none
          secret :=
            match seci with
            | some i => if i < tds.length then some (secretVal (cell_text (cellAt tds i))) else none
            | none => none
          implemented :=
            match impi with
            | some i => if i < tds.length then some (cell_text (cellAt tds i)) else none
            | none => none }

/-- The achievements main: locate the table, map headers to column
indices, walk the data rows.  None models the fatal RuntimeError paths. -/
def achievementsMain (doc : List HTable) : Option (List Item) :=
  match find_achievements_table doc with
  | none => none
  | some (t, headers) =>
    match lastIdxOf headers (("name").toList), lastIdxOf headers (("grade").toList),
        lastIdxOf headers (("points").toList), lastIdxOf headers (("description").toList) with
    | some ni, some gi, some poi, some di =>
      some ((t.rows.drop 1).filterMap
        (processRow ni gi poi di (lastIdxOf headers (("id").toList))
          (lastIdxOf headers (("secret?").toList))
          (lastIdxOf headers (("implemented").toList))))
    | _, _, _, _ => none

/-! ## download_fandom_outfits_female_addons.py -/

/-- Name derivation of the outfits row loop: link text when an anchor is
present, otherwise get_text(" ", strip=True) of the whole cell (no
superscript removal there), stripped. -/
def extractNameOutfits (c : Cell) : List Char :=
  pyStrip (match firstAnchor c with
    | some t => pyStrip t
    | none => getTextSpace c.items)

/-- pick_image_url_from_cell: first img of the cell, deferred-loading
data-src attribute preferred over src by Python truthiness. -/
def pick_image_url_from_cell (c : Cell) : Option (List Char) :=
  match c.items.findSome? (fun it =>
      match it with
      | Inline.img d s => some (d, s)
      | _ => none) with
  | none => none
  | some (d, s) =>
    match d with
    | some dv => if dv = [] then s else some dv
    | none => s

structure OutfitRec where
  name : List Char
  img_url : List Char
deriving DecidableEq

/-- One step of the outfits row loop: before the header row is passed,
rows only toggle the passed flag; after it, a data row must clear the
cell-count guard, derive a non-empty name, an unseen lowercased key and a
truthy image URL to be appended. -/
def outfitsStep (fidx : Nat) (st : List OutfitRec × List (List Char) × Bool)
    (tr : HRow) : List OutfitRec × List (List Char) × Bool :=
  let (res, seen, passed) := st
  if passed = false then
    let ths := tr.cells.filter (fun c => c.header)
    if ths.any (fun th =>
        containsSub (("female addons").toList) (norm (getTextSpace th.items))) then
      (res, seen, true)
    else st
  else
    let cells := tr.cells
    if cells.length ≤ fidx then st
    else
      let name := extractNameOutfits (cellAt cells 0)
      if name = [] then st
      else
        let key := name.map Char.toLower
        if key ∈ seen then st
        else
          match pick_image_url_from_cell (cellAt cells fidx) with
          | none => st
          | some u => if u = [] then st else (res ++ [⟨name, u⟩], key :: seen, passed)

/-- The outfits main row scan, given the located table rows and the
female-addons column index. -/
def outfitsResults (fidx : Nat) (rows : List HRow) : List OutfitRec :=
  (rows.foldl (outfitsStep fidx) ([], [], false)).1

/-! ## download_tibiawiki_assets.py -/

/-- An HTTP response of the primary transport. -/
structure HtmlResp where
  status : Nat
  text : List Char

/-- The two failure shapes of fetch_html: a raise_for_status error and the
no-HTML RuntimeError naming the derived page title. -/
inductive FetchErr where
  | httpStatus (code : Nat)
  | noHtml (title : List Char)
deriving DecidableEq

/-- Path of a URL: the part after the host, query and fragment dropped
(models urlparse(url).path for the URLs the script builds). -/
def urlPath (u : List Char) : List Char :=
  match afterSchemeAux u with
  | some rest => (rest.dropWhile (fun c => c ≠ '/')).takeWhile
      (fun c => c ≠ '?' ∧ c ≠ '#')
  | none => u.takeWhile (fun c => c ≠ '?' ∧ c ≠ '#')
where
  afterSchemeAux : List Char → Option (List Char)
    | [] => none
    | c :: cs =>
      if (("://").toList).isPrefixOf (c :: cs) then some ((c :: cs).drop 3)
      else afterSchemeAux cs

/-- Does the string contain the /wiki/ marker. -/
def hasWikiMarker : List Char → Bool
  | [] => false
  | c :: cs => (("/wiki/").toList).isPrefixOf (c :: cs) || hasWikiMarker cs

/-- path.split("/wiki/")[-1]: the suffix after the last occurrence of the
marker, the whole string when the marker is absent. -/
def afterLastWiki : List Char → List Char
  | [] => []
  | c :: cs =>
    if (("/wiki/").toList).isPrefixOf (c :: cs) then afterLastWiki ((c :: cs).drop 6)
    else if hasWikiMarker cs then afterLastWiki cs
    else c :: cs
termination_by s => s.length
decreasing_by
  · simp only [List.drop_succ_cons, List.length_cons, List.length_drop]
    omega
  · simp

def hexVal (c : Char) : Nat :=
  if c.isDigit then c.toNat - 48
  else if 'a' ≤ c ∧ c ≤ 'f' then c.toNat - 87
  else c.toNat - 55

def isHexDigit (c : Char) : Bool :=
  c.isDigit || ('a' ≤ c && c ≤ 'f') || ('A' ≤ c && c ≤ 'F')

/-- urllib.parse.unquote, decoded byte-per-char (the UTF-8 recombination
of multi-byte sequences is not modelled; the claims exercise ASCII). -/
def pyUnquote : List Char → List Char
  | [] => []
  | '%' :: a :: b :: tail =>
    if isHexDigit a ∧ isHexDigit b then
      Char.ofNat (16 * hexVal a + hexVal b) :: pyUnquote tail
    else '%' :: pyUnquote (a :: b :: tail)
  | c :: cs => c :: pyUnquote cs

/-- Title re-derivation of the fetch_html fallback:
unquote(urlparse(url).path.split("/wiki/")[-1]). -/
def deriveTitle (url : List Char) : List Char :=
  pyUnquote (afterLastWiki (urlPath url))

/-- fetch_html from download_tibiawiki_assets.py.  primary models
scraper.get on the URL; api models the parse-API request for a title,
returning the HTTP status and the optional parse.text.* field. -/
def fetch_html (primary : List Char → HtmlResp)
    (api : List Char → Nat × Option (List Char)) (url : List Char) :
    Except FetchErr (List Char) :=
  let r := primary url
  if r.status ≠ 403 then
    if 400 ≤ r.status then Except.error (FetchErr.httpStatus r.status)
    else Except.ok r.text
  else
    let title := deriveTitle url
    let (st, htmlField) := api title
    if 400 ≤ st then Except.error (FetchErr.httpStatus st)
    else
      match htmlField with
      | some h => if h = [] then Except.error (FetchErr.noHtml title) else Except.ok h
      | none => Except.error (FetchErr.noHtml title)

/-- One row of the run_group index: the dict value
(name, Fandom-style file, TibiaWiki source file, resolved source URL). -/
structure AssetRow where
  name : List Char
  file : List Char
  sourceWikiFile : List Char
  sourceUrl : List Char
deriving DecidableEq

/-- One (name, wiki file) pair of the run_group index-building loop: a
name already present is skipped, a name whose Fandom file cannot be built
is skipped, else a row with empty sourceUrl is appended. -/
def buildStep (idx : List AssetRow) (p : List Char × List Char) : List AssetRow :=
  if idx.any (fun r => r.name = p.1) then idx
  else
    match build_fandom_gif_file p.1 with
    | none => idx
    | some f => idx ++ [⟨p.1, f, p.2, []⟩]

/-- The run_group index-building loop over extracted (name, wiki file)
pairs: first occurrence of a name wins, names whose Fandom file cannot be
built are dropped, sourceUrl starts empty. -/
def buildIndex (pairs : List (List Char × List Char)) : List AssetRow :=
  pairs.foldl buildStep []

/-- In-place update row["sourceUrl"] = src_url or "" applied by the
download loop to every row of the dict. -/
def updateRow (mw : List Char → Option (List Char)) (r : AssetRow) : AssetRow :=
  { r with sourceUrl := (mw r.sourceWikiFile).getD [] }

/-- The index run_group serializes to index.json after the download loop:
every dict value with its resolved source URL recorded (empty on
resolution failure). -/
def runGroupIndex (mw : List Char → Option (List Char)) (index : List AssetRow) :
    List AssetRow :=
  index.map (updateRow mw)

/-- One iteration of the run_group download loop over the state
(existing non-empty files, downloaded count, skipped count): resolve the
source URL, skip when the destination file already exists, count a skip
when resolution failed, else attempt the download. -/
def mirrorStep (mw : List Char → Option (List Char)) (dl : List Char → Bool)
    (st : List (List Char) × Nat × Nat) (r : AssetRow) :
    List (List Char) × Nat × Nat :=
  let (fs, d, sk) := st
  let src := mw r.sourceWikiFile
  if r.file ∈ fs then (fs, d, sk)
  else
    match src with
    | none => (fs, d, sk + 1)
    | some u => if dl u then (r.file :: fs, d + 1, sk) else (fs, d, sk + 1)

/-- sorted(index.items(), key=lambda x: x[0].lower()). -/
def sortRows (index : List AssetRow) : List AssetRow :=
  insSort (fun a b => lexLe (a.name.map Char.toLower) (b.name.map Char.toLower)) index

/-- The run_group download loop: fold the mirror step over the rows in
case-insensitive name order, starting from the existing files. -/
def runGroupMirror (mw : List Char → Option (List Char)) (dl : List Char → Bool)
    (fs0 : List (List Char)) (index : List AssetRow) :
    List (List Char) × Nat × Nat :=
  (sortRows index).foldl (mirrorStep mw dl) (fs0, 0, 0)

/-! ## download_fandom_mounts.py -/

/-- pathlib suffix of a path: the last dot-started extension of the final
component, empty when the dot is leading or trailing. -/
def pySuffix (path : List Char) : List Char :=
  let base := (splitOnChar '/' path).getLastD []
  match lastDotIdx base 0 none with
  | some i => if 0 < i ∧ i + 1 < base.length then base.drop i else []
  | none => []
where
  lastDotIdx : List Char → Nat → Option Nat → Option Nat
    | [], _, acc => acc
    | c :: cs, i, acc => lastDotIdx cs (i + 1) (if c = '.' then some i else acc)

structure MountItem where
  name : List Char
  file : List Char
  sourceUrl : List Char
deriving DecidableEq

/-- One iteration of the mounts main loop over (index entries, existing
files, download count): resolve the page image (None models both a missing
image and a parse failure), derive extension and safe filename, download
unconditionally; only a successful download appends an index entry. -/
def mountsStep (img : List Char → Option (List Char)) (dl : List Char → Bool)
    (st : List MountItem × List (List Char) × Nat) (title : List Char) :
    List MountItem × List (List Char) × Nat :=
  let (out, fs, d) := st
  match img title with
  | none => st
  | some u =>
    let sfx := pySuffix (urlPath u)
    let ext := if sfx = [] then (".png").toList else sfx
    let fname := safe_filename title ++ ext
    if dl u then (out ++ [⟨title, fname, u⟩], fname :: fs, d + 1) else st

/-- The mounts main loop: titles sorted case-insensitively, then folded
through the download step.  Returns (index entries, files, downloads). -/
def mountsRun (img : List Char → Option (List Char)) (dl : List Char → Bool)
    (fs0 : List (List Char)) (titles : List (List Char)) :
    List MountItem × List (List Char) × Nat :=
  (insSort (fun a b => lexLe (a.map Char.toLower) (b.map Char.toLower)) titles).foldl
    (mountsStep img dl) ([], fs0, 0)

/-! ## Character lemmas -/

theorem toNat_ofNat_valid (n : Nat) (h : 65 ≤ n) (h2 : n ≤ 122) :
    (Char.ofNat n).toNat = n := by
  have hv : n.isValidChar := Or.inl (by omega)
  simp [Char.ofNat, hv, Char.ofNatAux, Char.toNat, UInt32.toNat, BitVec.toNat_ofNatLt]

theorem charToNat_inj {c d : Char} (h : c.toNat = d.toNat) : c = d := by
  rw [← Char.ofNat_toNat c, ← Char.ofNat_toNat d, h]

theorem toLower_eq_self {c : Char} (h : ¬(65 ≤ c.toNat ∧ c.toNat ≤ 90)) :
    c.toLower = c := by
  unfold Char.toLower
  exact if_neg h

theorem toNat_toLower_of_upper {c : Char} (h : 65 ≤ c.toNat ∧ c.toNat ≤ 90) :
    c.toLower.toNat = c.toNat + 32 := by
  unfold Char.toLower
  rw [if_pos h]
  exact toNat_ofNat_valid _ (by omega) (by omega)

theorem toUpper_eq_self {c : Char} (h : ¬(97 ≤ c.toNat ∧ c.toNat ≤ 122)) :
    c.toUpper = c := by
  unfold Char.toUpper
  exact if_neg h

theorem toNat_toUpper_of_lower {c : Char} (h : 97 ≤ c.toNat ∧ c.toNat ≤ 122) :
    c.toUpper.toNat = c.toNat - 32 := by
  unfold Char.toUpper
  rw [if_pos h]
  exact toNat_ofNat_valid _ (by omega) (by omega)

/-- Two characters with the same lowercasing have the same uppercasing. -/
theorem toUpper_congr {c d : Char} (h : c.toLower = d.toLower) :
    c.toUpper = d.toUpper := by
  by_cases hc : 65 ≤ c.toNat ∧ c.toNat ≤ 90 <;>
    by_cases hd : 65 ≤ d.toNat ∧ d.toNat ≤ 90
  · have hn := congrArg Char.toNat h
    rw [toNat_toLower_of_upper hc, toNat_toLower_of_upper hd] at hn
    rw [charToNat_inj (show c.toNat = d.toNat by omega)]
  · have h1 : c.toLower = d := by rw [h, toLower_eq_self hd]
    have h2 : d.toNat = c.toNat + 32 := by
      rw [← h1, toNat_toLower_of_upper hc]
    have h3 : d.toUpper = c := by
      apply charToNat_inj
      rw [toNat_toUpper_of_lower (by omega), h2]
      omega
    rw [h3, toUpper_eq_self (by omega)]
  · have h1 : d.toLower = c := by rw [← h, toLower_eq_self hc]
    have h2 : c.toNat = d.toNat + 32 := by
      rw [← h1, toNat_toLower_of_upper hd]
    have h3 : c.toUpper = d := by
      apply charToNat_inj
      rw [toNat_toUpper_of_lower (by omega), h2]
      omega
    rw [h3, toUpper_eq_self (by omega)]
  · rw [toLower_eq_self hc, toLower_eq_self hd] at h
    rw [h]

/-- For a target character that is neither an uppercase nor a lowercase
ASCII letter, lowercasing reaches it only from itself. -/
theorem toLower_fix_iff {d : Char} (hd1 : ¬(65 ≤ d.toNat ∧ d.toNat ≤ 90))
    (hd2 : ¬(97 ≤ d.toNat ∧ d.toNat ≤ 122)) (c : Char) :
    c.toLower = d ↔ c = d := by
  constructor
  · intro h
    by_cases hc : 65 ≤ c.toNat ∧ c.toNat ≤ 90
    · exfalso
      have hn := congrArg Char.toNat h
      rw [toNat_toLower_of_upper hc] at hn
      omega
    · rw [toLower_eq_self hc] at h
      exact h
  · rintro rfl
    exact toLower_eq_self hd1

/-! ## List helper lemmas -/

theorem map_intersperse (f : α → β) (sep : α) :
    ∀ l : List α, (l.intersperse sep).map f = (l.map f).intersperse (f sep)
  | [] => rfl
  | [a] => rfl
  | a :: b :: tl => by
    simp only [List.map_cons, List.intersperse_cons_cons]
    rw [map_intersperse f sep (b :: tl), List.map_cons]

theorem map_intercalate (f : α → β) (sep : List α) (l : List (List α)) :
    (List.intercalate sep l).map f =
      List.intercalate (sep.map f) (l.map (List.map f)) := by
  unfold List.intercalate
  rw [List.map_flatten, map_intersperse]

theorem dropWhile_idem (p : α → Bool) (l : List α) :
    (l.dropWhile p).dropWhile p = l.dropWhile p := by
  induction l with
  | nil => rfl
  | cons c cs ih =>
    by_cases h : p c
    · rw [List.dropWhile_cons_of_pos h]
      exact ih
    · rw [List.dropWhile_cons_of_neg h, List.dropWhile_cons_of_neg h]

theorem head_dropWhile_neg (p : α → Bool) :
    ∀ (l : List α) (c : α) (cs : List α), l.dropWhile p = c :: cs → p c = false := by
  intro l
  induction l with
  | nil => intro c cs h; cases h
  | cons a as ih =>
    intro c cs h
    by_cases ha : p a
    · rw [List.dropWhile_cons_of_pos ha] at h
      exact ih c cs h
    · rw [List.dropWhile_cons_of_neg ha] at h
      cases h
      simpa using ha

/-- A stripped string has no leading whitespace left to drop. -/
theorem pyStrip_dropWhile (u : List Char) :
    (pyStrip u).dropWhile pyIsSpace = pyStrip u := by
  cases hc : pyStrip u with
  | nil => rfl
  | cons c cs =>
    have hsuf : (pyStrip u).reverse <:+ (u.dropWhile pyIsSpace).reverse := by
      unfold pyStrip
      rw [List.reverse_reverse]
      exact List.dropWhile_suffix pyIsSpace
    obtain ⟨rest, hrest⟩ := List.reverse_suffix.mp hsuf
    have hs1c : u.dropWhile pyIsSpace = c :: (cs ++ rest) := by
      rw [← hrest, hc]
      rfl
    have hpc : pyIsSpace c = false := head_dropWhile_neg pyIsSpace u c (cs ++ rest) hs1c
    rw [List.dropWhile_cons_of_neg (by simp [hpc])]

/-- pyStrip is idempotent. -/
theorem pyStrip_idem (s : List Char) : pyStrip (pyStrip s) = pyStrip s := by
  show ((List.dropWhile pyIsSpace (pyStrip s)).reverse.dropWhile pyIsSpace).reverse = pyStrip s
  rw [pyStrip_dropWhile s]
  have hrev : (pyStrip s).reverse = (s.dropWhile pyIsSpace).reverse.dropWhile pyIsSpace := by
    show (((s.dropWhile pyIsSpace).reverse.dropWhile pyIsSpace).reverse).reverse = _
    rw [List.reverse_reverse]
  rw [hrev, dropWhile_idem]
  rfl

/-! ## Case-insensitivity of build_fandom_gif_file -/

/-- Splitting on a case-fixed separator commutes with lowercasing both
inputs: case-equivalent strings split into case-equivalent word lists. -/
theorem splitOnCharP_congr (d : Char) (hd : ∀ c : Char, c.toLower = d ↔ c = d) :
    ∀ u v : List Char, u.map Char.toLower = v.map Char.toLower →
      (splitOnCharP d u).1.map Char.toLower = (splitOnCharP d v).1.map Char.toLower ∧
      ((splitOnCharP d u).2).map (List.map Char.toLower) =
        ((splitOnCharP d v).2).map (List.map Char.toLower) := by
  intro u
  induction u with
  | nil =>
    intro v h
    have hv : v = [] := List.eq_nil_of_map_eq_nil h.symm
    subst hv
    exact ⟨rfl, rfl⟩
  | cons c cs ih =>
    intro v h
    cases v with
    | nil => cases h
    | cons e es =>
      simp only [List.map_cons, List.cons.injEq] at h
      obtain ⟨hce, hcses⟩ := h
      have hiff : c = d ↔ e = d := by
        constructor
        · rintro rfl
          exact (hd e).mp (by rw [← hce, (hd c).mpr rfl])
        · rintro rfl
          exact (hd c).mp (by rw [hce, (hd e).mpr rfl])
      obtain ⟨ih1, ih2⟩ := ih es hcses
      by_cases hcd : c = d
      · have hed : e = d := hiff.mp hcd
        simp only [splitOnCharP, if_pos hcd, if_pos hed, List.map_cons]
        refine ⟨trivial, ?_⟩
        rw [ih1, ih2]
      · have hed : e ≠ d := fun he => hcd (hiff.mpr he)
        simp only [splitOnCharP, if_neg hcd, if_neg hed, List.map_cons]
        refine ⟨?_, ih2⟩
        rw [hce, ih1]

/-- Case-equivalent segments capitalize identically. -/
theorem capSeg_congr {u v : List Char}
    (h : u.map Char.toLower = v.map Char.toLower) : capSeg u = capSeg v := by
  cases u with
  | nil =>
    have hv : v = [] := List.eq_nil_of_map_eq_nil h.symm
    rw [hv]
  | cons c cs =>
    cases v with
    | nil => cases h
    | cons e es =>
      simp only [List.map_cons, List.cons.injEq] at h
      simp only [capSeg, toUpper_congr h.1, h.2]

/-- Pointwise lift of a lowercase-congruent function to word lists. -/
theorem map_congr_of_lower (g : List Char → α)
    (hg : ∀ u v : List Char, u.map Char.toLower = v.map Char.toLower → g u = g v) :
    ∀ ls1 ls2 : List (List Char),
      ls1.map (List.map Char.toLower) = ls2.map (List.map Char.toLower) →
      ls1.map g = ls2.map g := by
  intro ls1
  induction ls1 with
  | nil =>
    intro ls2 h
    have : ls2 = [] := List.eq_nil_of_map_eq_nil h.symm
    rw [this]
  | cons w ws ih =>
    intro ls2 h
    cases ls2 with
    | nil => cases h
    | cons w2 ws2 =>
      simp only [List.map_cons, List.cons.injEq] at h
      simp only [List.map_cons, hg w w2 h.1, ih ws2 h.2]

/-- Case-equivalent words produce the same capitalized word. -/
theorem capWord_congr {u v : List Char}
    (h : u.map Char.toLower = v.map Char.toLower) : capWord u = capWord v := by
  have hd : ∀ c : Char, c.toLower = '-' ↔ c = '-' :=
    toLower_fix_iff (by decide) (by decide)
  obtain ⟨h1, h2⟩ := splitOnCharP_congr '-' hd u v h
  unfold capWord splitOnChar
  congr 1
  simp only [List.map_cons, List.cons.injEq]
  exact ⟨capSeg_congr h1, map_congr_of_lower capSeg (fun a b hab => capSeg_congr hab) _ _ h2⟩

/-- Indexed-map congruence for lowercase-congruent word functions. -/
theorem mapIdx_congr_of_lower (g : Nat → List Char → List Char)
    (hg : ∀ i u v, u.map Char.toLower = v.map Char.toLower → g i u = g i v) :
    ∀ (ls1 ls2 : List (List Char)) (i : Nat),
      ls1.map (List.map Char.toLower) = ls2.map (List.map Char.toLower) →
      mapIdx g i ls1 = mapIdx g i ls2 := by
  intro ls1
  induction ls1 with
  | nil =>
    intro ls2 i h
    have : ls2 = [] := List.eq_nil_of_map_eq_nil h.symm
    rw [this]
  | cons w ws ih =>
    intro ls2 i h
    cases ls2 with
    | nil => cases h
    | cons w2 ws2 =>
      simp only [List.map_cons, List.cons.injEq] at h
      simp only [mapIdx, hg i w w2 h.1, ih ws2 (i + 1) h.2]

/-- Names equal up to letter case (same whitespace-split word lists after
lowercasing) build the same gif file name. -/
theorem build_gif_congr_aux {s1 s2 : List Char} (h1 : s1 ≠ []) (h2 : s2 ≠ [])
    (hw : (pySplitWs s1).map (List.map Char.toLower) =
      (pySplitWs s2).map (List.map Char.toLower)) :
    build_fandom_gif_file s1 = build_fandom_gif_file s2 := by
  have hspace : ∀ c : Char, c.toLower = ' ' ↔ c = ' ' :=
    toLower_fix_iff (by decide) (by decide)
  have hnorm : (List.intercalate [' '] (pySplitWs s1)).map Char.toLower =
      (List.intercalate [' '] (pySplitWs s2)).map Char.toLower := by
    rw [map_intercalate, map_intercalate, hw]
  have hsplit := splitOnCharP_congr ' ' hspace _ _ hnorm
  have hwords : (splitOnChar ' ' (List.intercalate [' '] (pySplitWs s1))).map
        (List.map Char.toLower) =
      (splitOnChar ' ' (List.intercalate [' '] (pySplitWs s2))).map
        (List.map Char.toLower) := by
    unfold splitOnChar
    simp only [List.map_cons]
    rw [hsplit.1, hsplit.2]
  have houts := mapIdx_congr_of_lower (fun i w => applyFuncLower i (capWord w))
    (fun i u v huv => by simp only []; rw [capWord_congr huv]) _ _ 0 hwords
  simp only [build_fandom_gif_file, if_neg h1, if_neg h2]
  rw [houts]

/-! ## Supporting lemmas for safe_filename and parse_int -/

theorem mem_collapseRunsAux {rep c : Char} :
    ∀ (b : Bool) (l : List Char), c ∈ collapseRunsAux rep b l →
      c = rep ∨ (c ∈ l ∧ pyIsSpace c = false) := by
  intro b l
  induction l generalizing b with
  | nil =>
    intro h
    simp [collapseRunsAux] at h
  | cons a as ih =>
    intro h
    by_cases ha : pyIsSpace a
    · cases b with
      | true =>
        simp only [collapseRunsAux, if_pos ha, if_pos rfl] at h
        rcases ih true h with h1 | ⟨h2, h3⟩
        · exact Or.inl h1
        · exact Or.inr ⟨List.mem_cons_of_mem a h2, h3⟩
      | false =>
        simp only [collapseRunsAux, if_pos ha] at h
        rcases List.mem_cons.mp h with h1 | h1
        · exact Or.inl h1
        · rcases ih true h1 with h2 | ⟨h2, h3⟩
          · exact Or.inl h2
          · exact Or.inr ⟨List.mem_cons_of_mem a h2, h3⟩
    · simp only [collapseRunsAux, if_neg ha] at h
      rcases List.mem_cons.mp h with h1 | h1
      · subst h1
        exact Or.inr ⟨List.mem_cons_self c as, by simpa using ha⟩
      · rcases ih false h1 with h2 | ⟨h2, h3⟩
        · exact Or.inl h2
        · exact Or.inr ⟨List.mem_cons_of_mem a h2, h3⟩

theorem pyStrip_subset (s : List Char) : ∀ c, c ∈ pyStrip s → c ∈ s := by
  intro c h
  unfold pyStrip at h
  rw [List.mem_reverse] at h
  have h2 := (List.dropWhile_sublist pyIsSpace).subset h
  rw [List.mem_reverse] at h2
  exact (List.dropWhile_sublist pyIsSpace).subset h2

theorem keep_allowed {c : Char} (hk : keepChar c = true) (hs : pyIsSpace c = false) :
    pyIsWordChar c = true ∨ c = '_' ∨ c = '-' ∨ c = '(' ∨ c = ')' ∨
      c = '[' ∨ c = ']' ∨ c = '.' := by
  unfold keepChar at hk
  simp only [Bool.or_eq_true, decide_eq_true_eq] at hk
  rcases hk with ((((((hk | hk) | hk) | hk) | hk) | hk) | hk) | hk
  · exact Or.inl hk
  · rw [hk] at hs
    cases hs
  · exact Or.inr (Or.inr (Or.inl hk))
  · exact Or.inr (Or.inr (Or.inr (Or.inl hk)))
  · exact Or.inr (Or.inr (Or.inr (Or.inr (Or.inl hk))))
  · exact Or.inr (Or.inr (Or.inr (Or.inr (Or.inr (Or.inl hk)))))
  · exact Or.inr (Or.inr (Or.inr (Or.inr (Or.inr (Or.inr (Or.inl hk))))))
  · exact Or.inr (Or.inr (Or.inr (Or.inr (Or.inr (Or.inr (Or.inr hk))))))

theorem parse_int_none_iff :
    ∀ s : List Char, parse_int s = none ↔ ∀ c ∈ s, c.isDigit = false := by
  intro s
  induction s with
  | nil => simp [parse_int]
  | cons c cs ih =>
    by_cases hc : c.isDigit
    · simp [parse_int, hc]
    · by_cases hm : c = '-'
      · cases cs with
        | nil => simp [parse_int, hc, hm]
        | cons d ds =>
          by_cases hd : d.isDigit
          · simp [parse_int, hc, hm, hd]
          · rw [show parse_int (c :: d :: ds) = parse_int (d :: ds) by
              simp [parse_int, hc, hm, hd]]
            rw [ih]
            simp only [List.forall_mem_cons]
            constructor
            · intro h
              exact ⟨by simpa using hc, h⟩
            · intro h
              exact h.2
      · rw [show parse_int (c :: cs) = parse_int cs by simp [parse_int, hc, hm]]
        rw [ih]
        simp only [List.forall_mem_cons]
        constructor
        · intro h
          exact ⟨by simpa using hc, h⟩
        · intro h
          exact h.2

/-! ## Claims -/

/-- C5: the gif-file stem derivation of build_fandom_gif_file is stable
under letter case and surrounding whitespace: names with the same
lowercased word lists build the same file name; concretely,
"the voice of ruin" and "The Voice Of Ruin" both build
The_Voice_of_Ruin.gif, keeping the leading function word capitalized. -/
theorem claim5_canonical_filename_stability :
    (∀ s1 s2 : List Char, s1 ≠ [] → s2 ≠ [] →
      (pySplitWs s1).map (List.map Char.toLower) =
        (pySplitWs s2).map (List.map Char.toLower) →
      build_fandom_gif_file s1 = build_fandom_gif_file s2) ∧
    build_fandom_gif_file (("the voice of ruin").toList) =
      some (("The_Voice_of_Ruin.gif").toList) ∧
    build_fandom_gif_file (("The Voice Of Ruin").toList) =
      some (("The_Voice_of_Ruin.gif").toList) :=
  ⟨fun _ _ h1 h2 hw => build_gif_congr_aux h1 h2 hw, by decide, by decide⟩

/-- Witness for C5 at the concrete pair of case-variant names. -/
theorem claim5_canonical_filename_stability_witness :
    build_fandom_gif_file ((" the  voice of RUIN ").toList) =
      build_fandom_gif_file (("The Voice Of Ruin").toList) :=
  claim5_canonical_filename_stability.1 _ _ (by decide) (by decide) (by decide)

/-- C7: parse_int extracts the first signed integer of the text, ignoring
surrounding annotation ("15 [citation]" gives 15), and a digit-free text
gives the unset value none, never 0. -/
theorem claim7_parse_int_annotation :
    parse_int (("15 [citation]").toList) = some 15 ∧
    (∀ s : List Char, parse_int s = none ↔ ∀ c ∈ s, c.isDigit = false) ∧
    (∀ s : List Char, (∀ c ∈ s, c.isDigit = false) → parse_int s ≠ some 0) := by
  refine ⟨by decide, parse_int_none_iff, ?_⟩
  intro s h hcontra
  rw [(parse_int_none_iff s).mpr h] at hcontra
  cases hcontra

/-- Witness for C7 at a concrete digit-free text. -/
theorem claim7_parse_int_annotation_witness :
    parse_int (("no digits [here]").toList) ≠ some 0 :=
  claim7_parse_int_annotation.2.2 (("no digits [here]").toList) (by decide)

/-- C10: safe_filename always returns a non-empty name of at most 160
characters drawn from word characters, underscore, hyphen, parentheses,
brackets and dot, with no whitespace left; when nothing survives the
filtering and stripping it returns the fixed name unknown. -/
theorem claim10_safe_filename_bound (name : List Char) :
    safe_filename name ≠ [] ∧
    (safe_filename name).length ≤ 160 ∧
    (∀ c ∈ safe_filename name,
      pyIsWordChar c = true ∨ c = '_' ∨ c = '-' ∨ c = '(' ∨ c = ')' ∨
        c = '[' ∨ c = ']' ∨ c = '.') ∧
    (∀ c ∈ safe_filename name, pyIsSpace c = false) ∧
    (collapseRuns '_' (pyStrip (name.filter keepChar)) = [] →
      safe_filename name = ("unknown").toList) := by
  unfold safe_filename
  by_cases h : collapseRuns '_' (pyStrip (name.filter keepChar)) = []
  · rw [if_pos h]
    refine ⟨by decide, by decide, ?_, ?_, fun _ => rfl⟩
    · intro c hc
      have he : ("unknown").toList = ['u', 'n', 'k', 'n', 'o', 'w', 'n'] := rfl
      rw [he] at hc
      fin_cases hc <;> decide
    · intro c hc
      have he : ("unknown").toList = ['u', 'n', 'k', 'n', 'o', 'w', 'n'] := rfl
      rw [he] at hc
      fin_cases hc <;> decide
  · rw [if_neg h]
    have hmem : ∀ c ∈ (collapseRuns '_' (pyStrip (name.filter keepChar))).take 160,
        c = '_' ∨ (c ∈ name.filter keepChar ∧ pyIsSpace c = false) := by
      intro c hc
      have h1 : c ∈ collapseRuns '_' (pyStrip (name.filter keepChar)) :=
        List.take_subset 160 _ hc
      rcases mem_collapseRunsAux false _ h1 with h2 | ⟨h2, h3⟩
      · exact Or.inl h2
      · exact Or.inr ⟨pyStrip_subset _ c h2, h3⟩
    refine ⟨?_, List.length_take_le 160 _, ?_, ?_, fun hh => absurd hh h⟩
    · intro hcontra
      rcases List.take_eq_nil_iff.mp hcontra with h1 | h1
      · exact absurd h1 (by decide)
      · exact h h1
    · intro c hc
      rcases hmem c hc with h1 | ⟨h1, h2⟩
      · exact Or.inr (Or.inl h1)
      · exact keep_allowed (List.of_mem_filter h1) h2
    · intro c hc
      rcases hmem c hc with h1 | ⟨_, h2⟩
      · rw [h1]
        decide
      · exact h2

/-- Witness for C10 at a name that strips to nothing. -/
theorem claim10_safe_filename_bound_witness :
    safe_filename (("@@@").toList) = ("unknown").toList :=
  (claim10_safe_filename_bound (("@@@").toList)).2.2.2.2 (by decide)

/-- C6: row name derivation prefers the first hyperlink text of the name
cell (the achievements and the outfits loop alike), falls back to the
cell's visible text, and a row with an empty derived name yields no
record; concretely a cell holding a link War Bear next to a footnote
glyph derives the name War Bear. -/
theorem claim6_name_extraction :
    (∀ (c : Cell) (t : List Char), firstAnchor c = some t →
      extractName c = pyStrip t ∧ extractNameOutfits c = pyStrip t) ∧
    (∀ c : Cell, firstAnchor c = none →
      extractName c = pyStrip (cell_text c) ∧
      extractNameOutfits c = pyStrip (getTextSpace c.items)) ∧
    (∀ (ni gi poi di : Nat) (idi seci impi : Option Nat) (tr : HRow),
      extractName (cellAt tr.cells ni) = [] →
      processRow ni gi poi di idi seci impi tr = none) ∧
    (∀ (fidx : Nat) (res : List OutfitRec) (seen : List (List Char)) (tr : HRow),
      fidx < tr.cells.length →
      extractNameOutfits (cellAt tr.cells 0) = [] →
      outfitsStep fidx (res, seen, true) tr = (res, seen, true)) ∧
    extractName ⟨false, [Inline.anchor (("War Bear").toList),
      Inline.txt (("*").toList)]⟩ = ("War Bear").toList := by
  refine ⟨?_, ?_, ?_, ?_, by decide⟩
  · intro c t h
    constructor
    · unfold extractName
      rw [h, pyStrip_idem]
    · unfold extractNameOutfits
      rw [h, pyStrip_idem]
  · intro c h
    constructor
    · unfold extractName
      rw [h]
    · unfold extractNameOutfits
      rw [h]
  · intro ni gi poi di idi seci impi tr hname
    by_cases hg : tr.cells.length = 0 ∨ tr.cells.length ≤ max (max ni gi) (max poi di)
    · simp only [processRow]
      rw [if_pos hg]
    · simp only [processRow]
      rw [if_neg hg, if_pos hname]
  · intro fidx res seen tr hlen hname
    have hle : ¬(tr.cells.length ≤ fidx) := by omega
    simp only [outfitsStep]
    rw [if_neg (by simp), if_neg hle, if_pos hname]

/-- Witness for C6 at a cell with a padded link text and at a linkless
cell. -/
theorem claim6_name_extraction_witness :
    extractName ⟨false, [Inline.anchor ((" War Bear ").toList)]⟩ =
      pyStrip ((" War Bear ").toList) :=
  (claim6_name_extraction.1 _ _ (by decide)).1

/-- The row used to separate the two cell-count readings of C8: three
cells with the maximum required column index also being 3. -/
def c8Row : HRow :=
  ⟨[⟨false, [Inline.txt (("X").toList)]⟩,
    ⟨false, [Inline.txt (("1").toList)]⟩,
    ⟨false, [Inline.txt (("2").toList)]⟩]⟩

/-- C8 counterexample: with field rules requiring maximum column index 3,
a row of exactly 3 cells is not "fewer cells than the maximum column
index", and its name would be non-empty, yet the loop drops it: the code
skips at cell count less-or-equal the maximum index, not strictly less. -/
theorem claim8_counterexample :
    processRow 0 1 2 3 none none none c8Row = none ∧
    ¬(c8Row.cells.length < 3) ∧
    extractName (cellAt c8Row.cells 0) ≠ [] := by decide

/-- C8 amended: a data row is dropped at the cell-count guard exactly when
its cell count is less than or equal to (not strictly less than) the
maximum column index required by the field rules; a row with more cells
than that index proceeds to extraction and is dropped only for an empty
derived name. -/
theorem claim8_row_skipping_amended (ni gi poi di : Nat)
    (idi seci impi : Option Nat) (tr : HRow) :
    (tr.cells.length ≤ max (max ni gi) (max poi di) →
      processRow ni gi poi di idi seci impi tr = none) ∧
    (max (max ni gi) (max poi di) < tr.cells.length →
      (processRow ni gi poi di idi seci impi tr = none ↔
        extractName (cellAt tr.cells ni) = [])) := by
  constructor
  · intro h
    simp only [processRow]
    rw [if_pos (Or.inr h)]
  · intro h
    have hg : ¬(tr.cells.length = 0 ∨
        tr.cells.length ≤ max (max ni gi) (max poi di)) := by
      rintro (h1 | h1) <;> omega
    simp only [processRow]
    rw [if_neg hg]
    by_cases hn : extractName (cellAt tr.cells ni) = []
    · rw [if_pos hn]
      simp [hn]
    · rw [if_neg hn]
      simp [hn]

/-- Witness for C8 amended at the concrete three-cell row. -/
theorem claim8_row_skipping_amended_witness :
    processRow 0 1 2 3 none none none c8Row = none :=
  (claim8_row_skipping_amended 0 1 2 3 none none none c8Row).1 (by decide)

/-- A header cell holding plain text, as in the located tables. -/
def achHeaderCell (s : List Char) : Cell :=
  ⟨true, [Inline.txt s]⟩

/-- A table whose only row is a header row of exactly the four required
tokens (the example of the claim). -/
def c1Table4 : HTable :=
  ⟨[⟨[achHeaderCell (("Points").toList), achHeaderCell (("Name").toList),
      achHeaderCell (("Description").toList), achHeaderCell (("Grade").toList)]⟩]⟩

/-- A five-column variant with scrambled order and case. -/
def c1Table5 : HTable :=
  ⟨[⟨[achHeaderCell (("pOints").toList), achHeaderCell (("NAME").toList),
      achHeaderCell (("descriptioN").toList), achHeaderCell (("GRADE").toList),
      achHeaderCell (("Id").toList)]⟩]⟩

/-- C1 counterexample: a document whose only table has the header row
Points, Name, Description, Grade — its normalized header set contains all
four required tokens, yet the locator rejects the document because the
row holds fewer than five header cells. -/
theorem claim1_counterexample :
    find_achievements_table [c1Table4] = none ∧
    (("name").toList ∈ (c1Table4.rows.headD ⟨[]⟩).cells.map
        (fun th => norm (getTextSpace th.items)) ∧
      ("grade").toList ∈ (c1Table4.rows.headD ⟨[]⟩).cells.map
        (fun th => norm (getTextSpace th.items)) ∧
      ("points").toList ∈ (c1Table4.rows.headD ⟨[]⟩).cells.map
        (fun th => norm (getTextSpace th.items)) ∧
      ("description").toList ∈ (c1Table4.rows.headD ⟨[]⟩).cells.map
        (fun th => norm (getTextSpace th.items))) := by decide

/-- C1 amended: the locator accepts the first table in document order
whose literal first row carries at least five header cells whose
normalized texts include name, grade, points and description, regardless
of their order or letter case; the four-header example is rejected only
by the five-cell minimum, and a five-column variant is located. -/
theorem claim1_table_location_amended :
    (∀ (pre post : List HTable) (t : HTable) (hs : List (List Char)),
      (∀ u ∈ pre, acceptsAchTable u = none) →
      acceptsAchTable t = some hs →
      find_achievements_table (pre ++ t :: post) = some (t, hs)) ∧
    find_achievements_table [c1Table5] =
      some (c1Table5, [("points").toList, ("name").toList,
        ("description").toList, ("grade").toList, ("id").toList]) := by
  refine ⟨?_, by decide⟩
  intro pre post t hs hpre ht
  unfold find_achievements_table
  rw [List.findSome?_append]
  have hpre2 : pre.findSome?
      (fun u => (acceptsAchTable u).map (fun hs => (u, hs))) = none :=
    List.findSome?_eq_none_iff.mpr (fun u hu => by rw [hpre u hu]; rfl)
  rw [hpre2]
  have hsome : ((fun u => (acceptsAchTable u).map (fun hs => (u, hs))) t).isSome := by
    simp only []
    rw [ht]
    rfl
  rw [List.findSome?_cons_of_isSome post hsome]
  simp [ht]

/-- Witness for C1 amended: the five-column scrambled table is the first
and only table and gets located. -/
theorem claim1_table_location_amended_witness :
    find_achievements_table ([] ++ c1Table5 :: []) =
      some (c1Table5, [("points").toList, ("name").toList,
        ("description").toList, ("grade").toList, ("id").toList]) :=
  claim1_table_location_amended.1 [] [] c1Table5 _
    (fun u hu => absurd hu (List.not_mem_nil u)) (by decide)

/-! ## Index and mirror lemmas -/

theorem buildStep_nodup (idx : List AssetRow) (p : List Char × List Char)
    (h : (idx.map (fun r => r.name)).Nodup) :
    ((buildStep idx p).map (fun r => r.name)).Nodup := by
  unfold buildStep
  by_cases ha : idx.any (fun r => r.name = p.1) = true
  · rw [if_pos ha]
    exact h
  · rw [if_neg ha]
    cases hb : build_fandom_gif_file p.1 with
    | none => exact h
    | some f =>
      rw [List.map_append, List.nodup_append]
      refine ⟨h, List.nodup_singleton _, ?_⟩
      intro a ha1 ha2
      have ha3 : a = p.1 := by simpa using ha2
      subst ha3
      obtain ⟨r, hr1, hr2⟩ := List.mem_map.mp ha1
      exact ha (List.any_eq_true.mpr ⟨r, hr1, by simp [hr2]⟩)

theorem buildIndex_fold_nodup :
    ∀ (pairs : List (List Char × List Char)) (idx : List AssetRow),
      (idx.map (fun r => r.name)).Nodup →
      ((pairs.foldl buildStep idx).map (fun r => r.name)).Nodup := by
  intro pairs
  induction pairs with
  | nil => intro idx h; exact h
  | cons p ps ih =>
    intro idx h
    rw [List.foldl_cons]
    exact ih _ (buildStep_nodup idx p h)

theorem mirrorStep_fs_mono (mw : List Char → Option (List Char))
    (dl : List Char → Bool) (st : List (List Char) × Nat × Nat) (r : AssetRow)
    (f : List Char) (hf : f ∈ st.1) : f ∈ (mirrorStep mw dl st r).1 := by
  obtain ⟨fs, d, sk⟩ := st
  simp only [mirrorStep]
  by_cases hfile : r.file ∈ fs
  · rw [if_pos hfile]
    exact hf
  · rw [if_neg hfile]
    cases mw r.sourceWikiFile with
    | none => exact hf
    | some u =>
      dsimp only
      by_cases hdl : dl u = true
      · rw [if_pos hdl]
        exact List.mem_cons_of_mem _ hf
      · rw [if_neg hdl]
        exact hf

theorem mirror_fold_fs_mono (mw : List Char → Option (List Char))
    (dl : List Char → Bool) :
    ∀ (rows : List AssetRow) (st : List (List Char) × Nat × Nat) (f : List Char),
      f ∈ st.1 → f ∈ (rows.foldl (mirrorStep mw dl) st).1 := by
  intro rows
  induction rows with
  | nil => intro st f hf; exact hf
  | cons r rows ih =>
    intro st f hf
    rw [List.foldl_cons]
    exact ih _ f (mirrorStep_fs_mono mw dl st r f hf)

theorem mirror_fold_downloaded_mem (mw : List Char → Option (List Char))
    (dl : List Char → Bool) :
    ∀ (rows : List AssetRow) (st : List (List Char) × Nat × Nat)
      (r : AssetRow) (u : List Char),
      r ∈ rows → mw r.sourceWikiFile = some u → dl u = true →
      r.file ∈ (rows.foldl (mirrorStep mw dl) st).1 := by
  intro rows
  induction rows with
  | nil =>
    intro st r u hr
    cases hr
  | cons a rows ih =>
    intro st r u hr hmw hdl
    rw [List.foldl_cons]
    rcases List.mem_cons.mp hr with h1 | h1
    · subst h1
      apply mirror_fold_fs_mono
      obtain ⟨fs, d, sk⟩ := st
      simp only [mirrorStep]
      by_cases hfile : r.file ∈ fs
      · rw [if_pos hfile]
        exact hfile
      · rw [if_neg hfile]
        simp only [hmw]
        rw [if_pos hdl]
        exact List.mem_cons_self _ _
    · exact ih _ r u h1 hmw hdl

theorem mirror_fold_no_downloads (mw : List Char → Option (List Char))
    (dl : List Char → Bool) :
    ∀ (rows : List AssetRow) (fs : List (List Char)) (sk : Nat),
      (∀ r ∈ rows, ∀ u, mw r.sourceWikiFile = some u → dl u = true → r.file ∈ fs) →
      ((rows.foldl (mirrorStep mw dl) (fs, 0, sk)).2.1 = 0) := by
  intro rows
  induction rows with
  | nil => intro fs sk _; rfl
  | cons r rows ih =>
    intro fs sk h
    rw [List.foldl_cons]
    by_cases hfile : r.file ∈ fs
    · have hstep : mirrorStep mw dl (fs, 0, sk) r = (fs, 0, sk) := by
        simp only [mirrorStep]
        rw [if_pos hfile]
      rw [hstep]
      exact ih fs sk (fun x hx => h x (List.mem_cons_of_mem r hx))
    · cases hmw : mw r.sourceWikiFile with
      | none =>
        have hstep : mirrorStep mw dl (fs, 0, sk) r = (fs, 0, sk + 1) := by
          simp only [mirrorStep]
          rw [if_neg hfile]
          simp only [hmw]
        rw [hstep]
        exact ih fs (sk + 1) (fun x hx => h x (List.mem_cons_of_mem r hx))
      | some u =>
        by_cases hdl : dl u = true
        · exact absurd (h r (List.mem_cons_self r rows) u hmw hdl) hfile
        · have hstep : mirrorStep mw dl (fs, 0, sk) r = (fs, 0, sk + 1) := by
            simp only [mirrorStep]
            rw [if_neg hfile]
            simp only [hmw]
            rw [if_neg hdl]
          rw [hstep]
          exact ih fs (sk + 1) (fun x hx => h x (List.mem_cons_of_mem r hx))

theorem mirror_fold_all_skipped (mw : List Char → Option (List Char))
    (dl : List Char → Bool) :
    ∀ (rows : List AssetRow) (fs : List (List Char)) (d sk : Nat),
      (∀ r ∈ rows, r.file ∈ fs) →
      rows.foldl (mirrorStep mw dl) (fs, d, sk) = (fs, d, sk) := by
  intro rows
  induction rows with
  | nil => intro fs d sk _; rfl
  | cons r rows ih =>
    intro fs d sk h
    rw [List.foldl_cons]
    have hstep : mirrorStep mw dl (fs, d, sk) r = (fs, d, sk) := by
      simp only [mirrorStep]
      rw [if_pos (h r (List.mem_cons_self r rows))]
    rw [hstep]
    exact ih fs d sk (fun x hx => h x (List.mem_cons_of_mem r hx))

/-- Invariant of the outfits row loop: result keys (lowercased names) are
distinct and all registered in seen. -/
theorem outfitsStep_inv (fidx : Nat) (st : List OutfitRec × List (List Char) × Bool)
    (tr : HRow)
    (h1 : (st.1.map (fun r => r.name.map Char.toLower)).Nodup)
    (h2 : ∀ r ∈ st.1, r.name.map Char.toLower ∈ st.2.1) :
    ((outfitsStep fidx st tr).1.map (fun r => r.name.map Char.toLower)).Nodup ∧
    ∀ r ∈ (outfitsStep fidx st tr).1,
      r.name.map Char.toLower ∈ (outfitsStep fidx st tr).2.1 := by
  obtain ⟨res, seen, passed⟩ := st
  simp only at h1 h2
  unfold outfitsStep
  dsimp only
  by_cases hp : passed = false
  · rw [if_pos hp]
    by_cases hth : (tr.cells.filter (fun c => c.header)).any (fun th =>
        containsSub (("female addons").toList) (norm (getTextSpace th.items))) = true
    · rw [if_pos hth]
      exact ⟨h1, h2⟩
    · rw [if_neg hth]
      exact ⟨h1, h2⟩
  · rw [if_neg hp]
    by_cases hlen : tr.cells.length ≤ fidx
    · rw [if_pos hlen]
      exact ⟨h1, h2⟩
    · rw [if_neg hlen]
      by_cases hname : extractNameOutfits (cellAt tr.cells 0) = []
      · rw [if_pos hname]
        exact ⟨h1, h2⟩
      · rw [if_neg hname]
        by_cases hseen : (extractNameOutfits (cellAt tr.cells 0)).map Char.toLower ∈ seen
        · rw [if_pos hseen]
          exact ⟨h1, h2⟩
        · rw [if_neg hseen]
          cases hpick : pick_image_url_from_cell (cellAt tr.cells fidx) with
          | none => exact ⟨h1, h2⟩
          | some u =>
            dsimp only
            by_cases hu : u = []
            · rw [if_pos hu]
              exact ⟨h1, h2⟩
            · rw [if_neg hu]
              constructor
              · rw [List.map_append, List.nodup_append]
                refine ⟨h1, List.nodup_singleton _, ?_⟩
                intro a ha1 ha2
                have ha3 : a = (extractNameOutfits (cellAt tr.cells 0)).map Char.toLower := by
                  simpa using ha2
                subst ha3
                obtain ⟨r, hr1, hr2⟩ := List.mem_map.mp ha1
                exact hseen (hr2 ▸ h2 r hr1)
              · intro r hr
                rcases List.mem_append.mp hr with hr1 | hr1
                · exact List.mem_cons_of_mem _ (h2 r hr1)
                · have : r = ⟨extractNameOutfits (cellAt tr.cells 0), u⟩ := by
                    simpa using hr1
                  subst this
                  exact List.mem_cons_self _ _

theorem outfits_fold_inv (fidx : Nat) :
    ∀ (rows : List HRow) (st : List OutfitRec × List (List Char) × Bool),
      (st.1.map (fun r => r.name.map Char.toLower)).Nodup →
      (∀ r ∈ st.1, r.name.map Char.toLower ∈ st.2.1) →
      (((rows.foldl (outfitsStep fidx) st).1.map
        (fun r => r.name.map Char.toLower)).Nodup) := by
  intro rows
  induction rows with
  | nil => intro st h1 _; exact h1
  | cons tr rows ih =>
    intro st h1 h2
    rw [List.foldl_cons]
    obtain ⟨h3, h4⟩ := outfitsStep_inv fidx st tr h1 h2
    exact ih _ h3 h4

/-- The achievements document used against C4: a located header row and
two identical data rows deriving the same name. -/
def c4DataRow : HRow :=
  ⟨[⟨false, [Inline.anchor (("X").toList)]⟩,
    ⟨false, [Inline.txt (("1").toList)]⟩,
    ⟨false, [Inline.txt (("2").toList)]⟩,
    ⟨false, [Inline.txt (("d").toList)]⟩,
    ⟨false, [Inline.txt (("7").toList)]⟩]⟩

def c4Doc : List HTable :=
  [⟨[⟨[achHeaderCell (("Name").toList), achHeaderCell (("Grade").toList),
      achHeaderCell (("Points").toList), achHeaderCell (("Description").toList),
      achHeaderCell (("Id").toList)]⟩, c4DataRow, c4DataRow]⟩]

/-- C4 counterexample: the achievements harvester performs no
deduplication at all: two data rows deriving the same name X both reach
the final output list, so its keys are not unique and the later duplicate
is not ignored. -/
theorem claim4_counterexample :
    ((achievementsMain c4Doc).getD []).map (fun it => it.name) =
      [("X").toList, ("X").toList] := by decide

/-- C4 amended: in the run_group index of the tibiawiki harvester, names
are unique keys and a pair whose name is already present leaves the index
unchanged (first occurrence wins); in the outfits harvester the
lowercased names of the collected rows are likewise distinct.  The
achievements harvester keeps duplicates. -/
theorem claim4_dedup_amended :
    (∀ pairs : List (List Char × List Char),
      ((buildIndex pairs).map (fun r => r.name)).Nodup) ∧
    (∀ (pairs : List (List Char × List Char)) (n wf : List Char),
      (buildIndex pairs).any (fun r => r.name = n) = true →
      buildIndex (pairs ++ [(n, wf)]) = buildIndex pairs) ∧
    (∀ (fidx : Nat) (rows : List HRow),
      ((outfitsResults fidx rows).map
        (fun r => r.name.map Char.toLower)).Nodup) := by
  refine ⟨?_, ?_, ?_⟩
  · intro pairs
    exact buildIndex_fold_nodup pairs [] (by simp)
  · intro pairs n wf h
    unfold buildIndex
    rw [List.foldl_append, List.foldl_cons, List.foldl_nil]
    show buildStep (buildIndex pairs) (n, wf) = buildIndex pairs
    unfold buildStep
    rw [if_pos h]
  · intro fidx rows
    exact outfits_fold_inv fidx rows ([], [], false) (by simp) (by simp)

/-- Witness for C4 amended: a repeated name leaves the index unchanged. -/
theorem claim4_dedup_amended_witness :
    buildIndex ([((("A").toList : List Char), ("a.gif").toList)] ++
      [(("A").toList, ("b.gif").toList)]) =
      buildIndex [(("A").toList, ("a.gif").toList)] :=
  claim4_dedup_amended.2.1 [(("A").toList, ("a.gif").toList)]
    (("A").toList) (("b.gif").toList) (by decide)

/-- C2 amended: in the tibiawiki run_group mirror, an entity whose
destination file already exists is skipped entirely while the resolved
source URL is still recorded by the index serialization, so a second run
over the unchanged index performs zero downloads and serializes an index
with the same names and files.  The mounts harvester never checks the
destination and re-downloads every entity on every run. -/
theorem claim2_idempotent_rerun (mw : List Char → Option (List Char))
    (dl : List Char → Bool) (fs0 : List (List Char)) (index : List AssetRow) :
    ((∀ r ∈ index, r.file ∈ fs0) →
      runGroupMirror mw dl fs0 index = (fs0, 0, 0)) ∧
    (runGroupMirror mw dl (runGroupMirror mw dl fs0 index).1 index).2.1 = 0 ∧
    (runGroupIndex mw index).map (fun r => (r.name, r.file)) =
      index.map (fun r => (r.name, r.file)) := by
  refine ⟨?_, ?_, ?_⟩
  · intro h
    unfold runGroupMirror
    apply mirror_fold_all_skipped
    intro r hr
    have hr2 : r ∈ index := by
      have hperm : ∀ (l : List AssetRow) x, x ∈ insSort
          (fun a b => lexLe (a.name.map Char.toLower) (b.name.map Char.toLower)) l →
          x ∈ l := by
        intro l
        induction l with
        | nil => intro x hx; exact hx
        | cons a as ih =>
          intro x hx
          simp only [insSort] at hx
          have hins : ∀ (m : List AssetRow) y b, y ∈ insertLe
              (fun a b => lexLe (a.name.map Char.toLower) (b.name.map Char.toLower)) b m →
              y = b ∨ y ∈ m := by
            intro m
            induction m with
            | nil =>
              intro y b hy
              simp [insertLe] at hy
              exact Or.inl hy
            | cons c cs ihm =>
              intro y b hy
              simp only [insertLe] at hy
              by_cases hle : lexLe (b.name.map Char.toLower) (c.name.map Char.toLower) = true
              · rw [if_pos hle] at hy
                rcases List.mem_cons.mp hy with h1 | h1
                · exact Or.inl h1
                · exact Or.inr h1
              · rw [if_neg hle] at hy
                rcases List.mem_cons.mp hy with h1 | h1
                · exact Or.inr (h1 ▸ List.mem_cons_self c cs)
                · rcases ihm y b h1 with h2 | h2
                  · exact Or.inl h2
                  · exact Or.inr (List.mem_cons_of_mem c h2)
          rcases hins _ x a hx with h1 | h1
          · exact h1 ▸ List.mem_cons_self a as
          · exact List.mem_cons_of_mem a (ih x h1)
      exact hperm index r hr
    exact h r hr2
  · unfold runGroupMirror
    apply mirror_fold_no_downloads
    intro r hr u hmw hdl
    exact mirror_fold_downloaded_mem mw dl (sortRows index) (fs0, 0, 0) r u hr hmw hdl
  · unfold runGroupIndex
    rw [List.map_map]
    apply List.map_congr_left
    intro r _
    rfl

/-- Witness for C2 amended at a one-row index whose file already exists. -/
theorem claim2_idempotent_rerun_witness :
    runGroupMirror (fun _ => some (("u").toList)) (fun _ => true)
      [("A.gif").toList]
      [⟨("A").toList, ("A.gif").toList, ("a.gif").toList, []⟩] =
      ([("A.gif").toList], 0, 0) :=
  (claim2_idempotent_rerun (fun _ => some (("u").toList)) (fun _ => true)
    [("A.gif").toList]
    [⟨("A").toList, ("A.gif").toList, ("a.gif").toList, []⟩]).1 (by decide)

/-- The mounts oracle used against C2: one title A resolving to a png. -/
def c2Img : List Char → Option (List Char) :=
  fun t => if t = ("A").toList then some (("http://h/p/A.png").toList) else none

/-- C2 counterexample: in the mounts harvester the destination file A.png
exists after the first run, yet the second run against the unchanged
source performs one download, not zero — the loop never checks the
destination directory. -/
theorem claim2_counterexample :
    ("A.png").toList ∈ (mountsRun c2Img (fun _ => true) [] [("A").toList]).2.1 ∧
    (mountsRun c2Img (fun _ => true)
      (mountsRun c2Img (fun _ => true) [] [("A").toList]).2.1
      [("A").toList]).2.2 = 1 := by decide

/-- C3 amended: in the tibiawiki run_group, a record whose resolution
chain yields no URL stays in the serialized index with an empty source
URL, and the index keeps one entry per in-memory record (nothing is
omitted).  The mounts harvester instead drops unresolved records. -/
theorem claim3_resolution_exhaustion_amended :
    (∀ (mw : List Char → Option (List Char)) (index : List AssetRow)
      (r : AssetRow), r ∈ index → mw r.sourceWikiFile = none →
      ({ r with sourceUrl := [] } : AssetRow) ∈ runGroupIndex mw index) ∧
    (∀ (mw : List Char → Option (List Char)) (index : List AssetRow),
      (runGroupIndex mw index).length = index.length) := by
  constructor
  · intro mw index r hr hmw
    have hupd : updateRow mw r = { r with sourceUrl := [] } := by
      unfold updateRow
      rw [hmw]
      rfl
    exact hupd ▸ List.mem_map_of_mem (updateRow mw) hr
  · intro mw index
    exact List.length_map index (updateRow mw)

/-- Witness for C3 amended at a one-row index whose resolution fails. -/
theorem claim3_resolution_exhaustion_amended_witness :
    ({ name := ("A").toList, file := ("A.gif").toList,
       sourceWikiFile := ("a.gif").toList, sourceUrl := [] } : AssetRow) ∈
      runGroupIndex (fun _ => none)
        [⟨("A").toList, ("A.gif").toList, ("a.gif").toList, ("old").toList⟩] :=
  claim3_resolution_exhaustion_amended.1 (fun _ => none)
    [⟨("A").toList, ("A.gif").toList, ("a.gif").toList, ("old").toList⟩]
    ⟨("A").toList, ("A.gif").toList, ("a.gif").toList, ("old").toList⟩
    (List.mem_singleton.mpr rfl) rfl

/-- C3 counterexample: in the mounts harvester a record whose resolution
yields no URL is omitted from the final index instead of being indexed
with an empty source URL. -/
theorem claim3_counterexample :
    (mountsRun (fun _ => none) (fun _ => true) [] [("A").toList]).1 = [] := by
  decide

/-- C9: when the primary transport answers 403, fetch_html re-derives the
page title from the URL path and asks the parse API; a non-empty HTML
fragment is returned as-is, and when the API yields no HTML (absent field
or empty string) the fetch fails with the error naming that derived
title; concretely the title derivation strips the host and /wiki/ prefix. -/
theorem claim9_fetch_fallback (primary : List Char → HtmlResp)
    (api : List Char → Nat × Option (List Char)) (url : List Char)
    (h403 : (primary url).status = 403) :
    (∀ (st : Nat) (h : List Char), api (deriveTitle url) = (st, some h) →
      st < 400 → h ≠ [] → fetch_html primary api url = Except.ok h) ∧
    (∀ st : Nat, api (deriveTitle url) = (st, none) → st < 400 →
      fetch_html primary api url =
        Except.error (FetchErr.noHtml (deriveTitle url))) ∧
    (∀ st : Nat, api (deriveTitle url) = (st, some []) → st < 400 →
      fetch_html primary api url =
        Except.error (FetchErr.noHtml (deriveTitle url))) := by
  have hnn : ¬((primary url).status ≠ 403) := fun hne => hne h403
  refine ⟨?_, ?_, ?_⟩
  · intro st h ha hst hne
    simp only [fetch_html]
    rw [if_neg hnn]
    simp only [ha]
    rw [if_neg (by omega), if_neg hne]
  · intro st ha hst
    simp only [fetch_html]
    rw [if_neg hnn]
    simp only [ha]
    rw [if_neg (by omega)]
  · intro st ha hst
    simp only [fetch_html]
    rw [if_neg hnn]
    simp only [ha]
    rw [if_neg (by omega)]
    simp

/-- Witness for C9: a denied primary fetch with an API that yields no
HTML fails with the error carrying the derived title. -/
theorem claim9_fetch_fallback_witness :
    fetch_html (fun _ => ⟨403, []⟩) (fun _ => (200, none))
      (("https://www.tibiawiki.com.br/wiki/Bosses").toList) =
      Except.error (FetchErr.noHtml
        (deriveTitle (("https://www.tibiawiki.com.br/wiki/Bosses").toList))) :=
  (claim9_fetch_fallback (fun _ => ⟨403, []⟩) (fun _ => (200, none))
    (("https://www.tibiawiki.com.br/wiki/Bosses").toList) rfl).2.1 200 rfl
    (by omega)

end TibiaSprites
